import Mathlib

/-!
Shallow embedding of the concurrent paginated resource synchronizer of the
`gitlab-v2` integration clients:

* `rest_client.py` — `_make_paginated_request` (page/offset paginator);
* `graphql_client.py` — `_execute_paginated_query` (cursor paginator),
  `_fetch_paginated_fields` / `_paginate_field` (per-field nested stream),
  `_process_nested_fields` (bounded fan-in merger).

Remote endpoints are modelled as pure oracle functions; unbounded `while`
loops are given an explicit fuel argument together with a `finished` flag
(`false` means the fuel ran out before the loop terminated, so nothing is
claimed about that run beyond the work already performed).  Remote calls are
counted (REST/top-level) or logged as explicit call records (nested streams)
so that "issues no further request" claims are statements about those counts.
-/

/-- Opaque payload of one remote item (a JSON object in the source). -/
abbrev Item := Nat

/-- `pageInfo` of a cursor-paginated collection:
`{hasNextPage: bool, endCursor: string|null}`. -/
structure PageInfo where
  hasNextPage : Bool
  endCursor : Option String
deriving DecidableEq, Repr

/-- A nested-collection-shaped field value: a dict holding both `nodes` and
`pageInfo` (the structural test used by `_fetch_paginated_fields`). -/
structure NestedField where
  nodes : List Item
  pageInfo : PageInfo
deriving DecidableEq, Repr

/-- A field value on a record: either a plain (non-collection) value or a
nested collection `{nodes, pageInfo}`.  `plain` covers every dict value that
fails the `isinstance(value, dict) and "nodes" in value and "pageInfo" in
value` test. -/
inductive FieldValue where
  | plain (v : Nat)
  | nested (nf : NestedField)
deriving DecidableEq, Repr

/-- One parent record of a top-level batch: the `id` key plus its remaining
fields (a Python dict; keys are unique in any real record). -/
structure Record where
  id : String
  fields : List (String × FieldValue)
deriving DecidableEq, Repr

/-- Dict lookup `record[f]` on the non-id fields. -/
def lookupField (f : String) : List (String × FieldValue) → Option FieldValue
  | [] => none
  | (k, v) :: rest => if k = f then some v else lookupField f rest

/-- The `nodes` list of a record's nested field `f` (empty when `f` is absent
or not nested-collection shaped). -/
def getNodes (r : Record) (f : String) : List Item :=
  match lookupField f r.fields with
  | some (.nested nf) => nf.nodes
  | _ => []

/-- Whether `r[f]` exists and is nested-collection shaped. -/
def hasNestedField (r : Record) (f : String) : Bool :=
  match lookupField f r.fields with
  | some (.nested _) => true
  | _ => false

/-- The structural discovery of `_fetch_paginated_fields`: all
`(field, value)` pairs of the record whose value is nested-collection
shaped, in field order. -/
def nestedFieldsOf (r : Record) : List (String × NestedField) :=
  r.fields.filterMap fun kv =>
    match kv.2 with
    | .nested nf => some (kv.1, nf)
    | .plain _ => none

/-- `project[field_name]["nodes"].extend(ns)` of `_process_nested_fields`:
append `ns` to the nested field named `f` (no-op on other fields and on a
plain `f`). -/
def mergeFields (f : String) (ns : List Item) :
    List (String × FieldValue) → List (String × FieldValue)
  | [] => []
  | (k, v) :: rest =>
    (k,
      if k = f then
        match v with
        | .nested nf => FieldValue.nested ⟨nf.nodes ++ ns, nf.pageInfo⟩
        | .plain w => FieldValue.plain w
      else v) :: mergeFields f ns rest

/-- Merge newly arrived items `ns` of field `f` into parent `r`. -/
def mergeField (r : Record) (f : String) (ns : List Item) : Record :=
  ⟨r.id, mergeFields f ns r.fields⟩

/-! ## `rest_client.py` — `_make_paginated_request`

The remote endpoint is `server : page number → list of items`.  The result is
`(batches, calls, finished)`: the batches yielded in order, the number of
remote calls performed, and whether the loop reached one of its `break`
statements within the fuel budget. -/

/-- `RestClient.DEFAULT_PAGE_SIZE`. -/
def defaultPageSize : Nat := 100

/-- The `while True` loop of `_make_paginated_request`, starting at `page`. -/
def makePaginatedRequestGo (server : Nat → List Item) (pageSize : Nat) :
    Nat → Nat → List (List Item) × Nat × Bool
  | 0, _ => ([], 0, false)
  | fuel + 1, page =>
    let resp := server page
    if resp.isEmpty then ([], 1, true)
    else if resp.length < pageSize then ([resp], 1, true)
    else
      let rest := makePaginatedRequestGo server pageSize fuel (page + 1)
      (resp :: rest.1, rest.2.1 + 1, rest.2.2)

/-- `_make_paginated_request(path, params, page_size)`: pages start at 1. -/
def makePaginatedRequest (server : Nat → List Item) (pageSize fuel : Nat) :
    List (List Item) × Nat × Bool :=
  makePaginatedRequestGo server pageSize fuel 1

/-! ## `graphql_client.py` — `_execute_paginated_query`

The remote endpoint is `tserver : cursor variable → top-level response`
(`data[resource_field]`, holding `nodes` and `pageInfo`).  Again the result is
`(batches, calls, finished)`. -/

/-- `data[resource_field]` of one top-level GraphQL response. -/
structure TopResponse where
  nodes : List Record
  pageInfo : PageInfo

/-- The `while True` loop of `_execute_paginated_query` from a given cursor:
fetch; stop (without yielding) on empty `nodes`; yield; stop when
`hasNextPage` is false; else continue with `cursor = pageInfo.get("endCursor")`
(which may be `none` — the loop has no missing-cursor check). -/
def executePaginatedQueryGo (tserver : Option String → TopResponse) :
    Nat → Option String → List (List Record) × Nat × Bool
  | 0, _ => ([], 0, false)
  | fuel + 1, cursor =>
    let resp := tserver cursor
    if resp.nodes.isEmpty then ([], 1, true)
    else if resp.pageInfo.hasNextPage then
      let rest := executePaginatedQueryGo tserver fuel resp.pageInfo.endCursor
      (resp.nodes :: rest.1, rest.2.1 + 1, rest.2.2)
    else ([resp.nodes], 1, true)

/-- `_execute_paginated_query`: the top-level loop starts with `cursor = None`. -/
def executePaginatedQuery (tserver : Option String → TopResponse) (fuel : Nat) :
    List (List Record) × Nat × Bool :=
  executePaginatedQueryGo tserver fuel none

/-! ## `graphql_client.py` — `_paginate_field`

A nested-field re-query sends variables `{f"{field_name}Cursor": cursor}`;
the response contributes, per sibling resource, that resource's `id` and the
queried field's data.  `nserver varName cursor` returns that list of
`(id, field data)` pairs.  Each remote call actually issued is recorded as a
`NestedCall`. -/

/-- One remote call issued by a nested-field stream: the cursor variable name
used and the cursor value sent. -/
structure NestedCall where
  varName : String
  cursor : String
deriving DecidableEq, Repr

/-- Why a nested-field stream's loop ended. -/
inductive RunOutcome where
  /-- `hasNextPage` became false: normal exhaustion. -/
  | done
  /-- `hasNextPage` true with absent cursor: logged, `break` (treated as
  exhaustion). -/
  | noCursorStop
  /-- The `next(...)` lookup of the parent in the response raised
  (no sibling with the parent's id): the generator errors out. -/
  | findError
  /-- Fuel ran out before the loop ended. -/
  | fuelOut
deriving DecidableEq, Repr

/-- `next(resource[field_name] for resource in nodes if resource["id"] ==
parent_id)`: first sibling matching the parent id. -/
def findParentField (parentId : String) :
    List (String × NestedField) → Option NestedField
  | [] => none
  | (k, fd) :: rest =>
    if k = parentId then some fd else findParentField parentId rest

/-- The `while page_info["hasNextPage"]` loop of `_paginate_field`, driven by
the current `pageInfo` (the loop's cursor is always `pageInfo.endCursor`).
Returns the pages yielded by the loop, the remote calls issued, and the
outcome. -/
def paginateFieldGo (nserver : String → String → List (String × NestedField))
    (parentId fieldName : String) :
    Nat → PageInfo → List (List Item) × List NestedCall × RunOutcome
  | 0, pi =>
    if pi.hasNextPage then
      match pi.endCursor with
      | none => ([], [], .noCursorStop)
      | some _ => ([], [], .fuelOut)
    else ([], [], .done)
  | fuel + 1, pi =>
    if pi.hasNextPage then
      match pi.endCursor with
      | none => ([], [], .noCursorStop)
      | some c =>
        let call : NestedCall := ⟨fieldName ++ "Cursor", c⟩
        match findParentField parentId (nserver (fieldName ++ "Cursor") c) with
        | none => ([], [call], .findError)
        | some fd =>
          let rest := paginateFieldGo nserver parentId fieldName fuel fd.pageInfo
          (fd.nodes :: rest.1, call :: rest.2.1, rest.2.2)
    else ([], [], .done)

/-- `_paginate_field(parent, field_name, ...)`: first yield the already-known
first page `parent[field_name]["nodes"]` (no remote call), then run the
re-query loop from `parent[field_name]["pageInfo"]`. -/
def paginateField (nserver : String → String → List (String × NestedField))
    (parentId fieldName : String) (nf : NestedField) (fuel : Nat) :
    List (List Item) × List NestedCall × RunOutcome :=
  (nf.nodes :: (paginateFieldGo nserver parentId fieldName fuel nf.pageInfo).1,
   (paginateFieldGo nserver parentId fieldName fuel nf.pageInfo).2)

/-! ## `graphql_client.py` — the per-parent iterator and the merger

`_fetch_paginated_fields` chains the per-field generators of one parent into a
single async iterator.  `_process_nested_fields` only observes that iterator
through `anext`, which either produces a `(field_name, nodes)` pair, raises
`StopAsyncIteration` (end of iterator) or raises an exception.  An iterator is
therefore embedded as the finite list of events it produces. -/

/-- One observable step of a per-parent nested-field iterator. -/
inductive StreamEvent where
  /-- `anext` produced `(field_name, nodes)`. -/
  | fieldPage (field : String) (nodes : List Item)
  /-- `anext` raised an exception. -/
  | failure
deriving DecidableEq, Repr

/-- A per-parent nested-field iterator, as its event trace. -/
abbrev FieldStream := List StreamEvent

/-- The events of one `_paginate_field` run: its yields in order, followed by
the raised exception when the parent lookup failed. -/
def fieldEvents (fieldName : String)
    (run : List (List Item) × List NestedCall × RunOutcome) : FieldStream :=
  run.1.map (fun ns => StreamEvent.fieldPage fieldName ns) ++
    (if run.2.2 = RunOutcome.findError then [StreamEvent.failure] else [])

/-- `_fetch_paginated_fields(resource, ...)`: one generator per
nested-collection-shaped field, chained sequentially.  A record with no such
fields yields an empty (immediately exhausted) iterator. -/
def fetchPaginatedFields
    (nserver : String → String → List (String × NestedField))
    (r : Record) (fuel : Nat) : FieldStream :=
  (nestedFieldsOf r).flatMap fun kv =>
    fieldEvents kv.1 (paginateField nserver r.id kv.1 kv.2 fuel)

/-- One `(project, field_iter)` advance inside a wave of
`_process_nested_fields`: an exhausted or erroring iterator drops the pair
(`none`); a yielded `(field, nodes)` pair merges non-empty `nodes` into the
parent and keeps the pair.  The `Bool` is this advance's contribution to the
wave's `updated` flag. -/
def stepPair (p : Record × FieldStream) :
    Option (Record × FieldStream) × Bool :=
  match p.2 with
  | [] => (none, false)
  | .failure :: _ => (none, false)
  | .fieldPage f ns :: rest =>
    if ns.isEmpty then (some (p.1, rest), false)
    else (some (mergeField p.1 f ns, rest), true)

/-- One wave of `_process_nested_fields`: advance every active pair once (the
`asyncio.gather` preserves task order), collect the surviving pairs in order
and OR together the `updated` contributions. -/
def waveStep (active : List (Record × FieldStream)) :
    List (Record × FieldStream) × Bool :=
  active.foldr
    (fun p acc =>
      match stepPair p with
      | (none, u) => (acc.1, u || acc.2)
      | (some q, u) => (q :: acc.1, u || acc.2))
    ([], false)

/-- The `while active_data` loop of `_process_nested_fields`: run waves until
the active set is empty, emitting after each wave whose `updated` flag is set
the snapshot of all still-active parents (the Python snapshot is a
value-identical manual copy of each record).  Returns the list of emitted
snapshots. -/
def processNestedFields :
    Nat → List (Record × FieldStream) → List (List Record)
  | 0, _ => []
  | fuel + 1, active =>
    if active.isEmpty then []
    else
      let w := waveStep active
      (if w.2 then [w.1.map Prod.fst] else []) ++ processNestedFields fuel w.1

/-- The trace of active-set states the merger passes through (first element is
the initial active set). -/
def mergerStates :
    Nat → List (Record × FieldStream) → List (List (Record × FieldStream))
  | 0, active => [active]
  | fuel + 1, active =>
    if active.isEmpty then [active]
    else active :: mergerStates fuel (waveStep active).1

/-! ## Concurrency cap

`_process_nested_fields` throttles the per-wave advances with
`sem = asyncio.Semaphore(50)`; `bounded_anext` acquires a slot before awaiting
`anext` (which performs the remote call) and `async with` releases it when the
advance resolves, also on an exception.  The cooperative scheduling of one
wave's tasks is embedded as a labelled transition system over the semaphore
state: `pending` tasks have not yet acquired a slot, `inflight` tasks hold a
slot (their remote call is outstanding), `completed` tasks have released it. -/

/-- The capacity the source passes to `asyncio.Semaphore`. -/
def semaphoreCapacity : Nat := 50

/-- State of one wave's advances with respect to the semaphore. -/
structure SemState where
  inflight : Nat
  pending : Nat
  completed : Nat
deriving DecidableEq, Repr

/-- The two scheduler events that touch the semaphore: a pending advance
acquires a slot (only when fewer than `cap` are held) and initiates its remote
call; an in-flight advance resolves — successfully or not — and releases its
slot. -/
inductive SemStep (cap : Nat) : SemState → SemState → Prop where
  | acquire (s : SemState) : 0 < s.pending → s.inflight < cap →
      SemStep cap s ⟨s.inflight + 1, s.pending - 1, s.completed⟩
  | release (s : SemState) : 0 < s.inflight →
      SemStep cap s ⟨s.inflight - 1, s.pending, s.completed + 1⟩

/-- Initial state of a wave with `n` advances: none started. -/
def semInit (n : Nat) : SemState := ⟨0, n, 0⟩

/-- States a wave of `n` advances under cap `cap` can reach. -/
def SemReachable (cap n : Nat) (s : SemState) : Prop :=
  Relation.ReflTransGen (SemStep cap) (semInit n) s

/-- Append-only refinement between two consecutive merger states: every pair
of the later state descends from a pair of the earlier one with the same
parent id, and for every field the earlier `nodes` list is an initial segment
of the later one (new items strictly after old, length non-decreasing). -/
def appendOnlyStep (s t : List (Record × FieldStream)) : Prop :=
  ∀ p' ∈ t, ∃ p ∈ s, p'.1.id = p.1.id ∧
    ∀ f, (∃ tail, getNodes p'.1 f = getNodes p.1 f ++ tail) ∧
      (getNodes p.1 f).length ≤ (getNodes p'.1 f).length

/-! ## Helper lemmas -/

theorem getLast?_cons_of_ne_nil {α : Type} (a : α) {l : List α} (h : l ≠ []) :
    (a :: l).getLast? = l.getLast? := by
  cases l with
  | nil => exact absurd rfl h
  | cons b t => exact List.getLast?_cons_cons

/-- The re-query loop of `_paginate_field` issues exactly one remote call per
page it yields (unless the parent lookup errored after a call), and every call
it issues uses the field-scoped cursor variable `"<fieldName>Cursor"`. -/
theorem paginateFieldGo_calls
    (nserver : String → String → List (String × NestedField))
    (pid f : String) :
    ∀ fuel pi,
      ((paginateFieldGo nserver pid f fuel pi).2.2 ≠ RunOutcome.findError →
        (paginateFieldGo nserver pid f fuel pi).2.1.length
          = (paginateFieldGo nserver pid f fuel pi).1.length) ∧
      (∀ call ∈ (paginateFieldGo nserver pid f fuel pi).2.1,
        call.varName = f ++ "Cursor") := by
  intro fuel
  induction fuel with
  | zero =>
    intro pi
    simp only [paginateFieldGo]
    split
    · split <;> simp
    · simp
  | succ n ih =>
    intro pi
    simp only [paginateFieldGo]
    split
    · split
      · simp
      · split
        · simp
        · rename_i fd heq
          constructor
          · intro ho
            simpa using ((ih fd.pageInfo).1 (by simpa using ho))
          · intro call hc
            rcases List.mem_cons.mp (by simpa using hc) with h | h
            · simp [h]
            · exact (ih fd.pageInfo).2 call h
    · simp

/-- When `hasNextPage` is false the re-query loop of `_paginate_field` ends at
once with no pages, no calls, outcome `done`. -/
theorem paginateFieldGo_of_not_hasNextPage
    (nserver : String → String → List (String × NestedField))
    (pid f : String) (fuel : Nat) (pi : PageInfo)
    (h : pi.hasNextPage = false) :
    paginateFieldGo nserver pid f fuel pi = ([], [], RunOutcome.done) := by
  cases fuel <;> simp [paginateFieldGo, h]

/-- When `hasNextPage` is true but the cursor is absent, the re-query loop of
`_paginate_field` logs and breaks at once: no pages, no calls, outcome
`noCursorStop`. -/
theorem paginateFieldGo_of_missing_cursor
    (nserver : String → String → List (String × NestedField))
    (pid f : String) (fuel : Nat) (pi : PageInfo)
    (h1 : pi.hasNextPage = true) (h2 : pi.endCursor = none) :
    paginateFieldGo nserver pid f fuel pi = ([], [], RunOutcome.noCursorStop) := by
  cases fuel <;> simp [paginateFieldGo, h1, h2]

/-! ## Claims C4–C8 -/

/-- C4 (divergence half): the top-level cursor loop of
`_execute_paginated_query` has no missing-cursor guard.  Against a server
whose responses always report `hasNextPage = true` with an absent `endCursor`,
the loop never stops: within any fuel budget it performs exactly `fuel` remote
calls (one per iteration, each re-issued with `cursor = None`), yields `fuel`
batches and never terminates — instead of stopping and reporting as the claim
requires (the nested-stream half of the claim does hold, see C8). -/
theorem c4_top_level_missing_cursor_loops (r : Record) :
    ∀ (fuel : Nat) (cursor : Option String),
      executePaginatedQueryGo (fun _ => ⟨[r], ⟨true, none⟩⟩) fuel cursor
        = (List.replicate fuel [r], fuel, false) := by
  intro fuel
  induction fuel with
  | zero => intro cursor; simp [executePaginatedQueryGo]
  | succ n ih =>
    intro cursor
    simp [executePaginatedQueryGo, ih none, List.replicate_succ]

/-- C5 counterexample: a page/offset endpoint with page size 2 that returns
`[10, 11]` and then an empty page.  The run terminates, the yielded sequence
is the single batch `[10, 11]` — non-empty, and its last batch has length 2,
not strictly less than the page size.  This refutes "the last batch yielded
has length strictly less than the configured page size, or the sequence is
empty". -/
theorem c5_counterexample :
    (makePaginatedRequest (fun p => if p = 1 then [10, 11] else []) 2 5).2.2
        = true ∧
    (makePaginatedRequest (fun p => if p = 1 then [10, 11] else []) 2 5).1
        ≠ [] ∧
    (makePaginatedRequest (fun p => if p = 1 then [10, 11] else []) 2 5).1.getLast?
        = some [10, 11] ∧
    ¬ ([10, 11] : List Item).length < 2 := by
  decide

/-- C5 amended: every terminating run of `_make_paginated_request` from
`startPage` ends in exactly one of three ways: the first response was empty
(zero batches, one call); the last batch is short (strictly fewer than
`pageSize` items, one call per batch); or after a sequence of full batches the
next response was empty (one call per batch plus the one terminal empty-page
call).  In particular no batch follows the terminal one, and each loop
iteration performs exactly one remote call. -/
theorem c5_last_batch_amended (server : Nat → List Item) (pageSize : Nat) :
    ∀ (fuel startPage : Nat) (bs : List (List Item)) (calls : Nat),
      makePaginatedRequestGo server pageSize fuel startPage = (bs, calls, true) →
      (bs = [] ∧ server startPage = [] ∧ calls = 1) ∨
      (∃ l, bs.getLast? = some l ∧ l.length < pageSize ∧ calls = bs.length) ∨
      (bs ≠ [] ∧ server (startPage + bs.length) = [] ∧ calls = bs.length + 1) := by
  intro fuel
  induction fuel with
  | zero =>
    intro startPage bs calls h
    simp [makePaginatedRequestGo, Prod.mk.injEq] at h
  | succ n ih =>
    intro startPage bs calls h
    simp only [makePaginatedRequestGo] at h
    split at h
    · rename_i hemp
      simp only [Prod.mk.injEq] at h
      obtain ⟨rfl, rfl, -⟩ := h
      exact Or.inl ⟨rfl, List.isEmpty_iff.mp hemp, rfl⟩
    · split at h
      · rename_i hshort
        simp only [Prod.mk.injEq] at h
        obtain ⟨rfl, rfl, -⟩ := h
        exact Or.inr (Or.inl ⟨server startPage, by simp, hshort, by simp⟩)
      · rename_i hemp hlong
        simp only [Prod.mk.injEq] at h
        obtain ⟨rfl, rfl, hfin⟩ := h
        have ihx := ih (startPage + 1)
          (makePaginatedRequestGo server pageSize n (startPage + 1)).1
          (makePaginatedRequestGo server pageSize n (startPage + 1)).2.1
          (by rw [← hfin])
        rcases ihx with ⟨h1, h2, h3⟩ | ⟨l, h1, h2, h3⟩ | ⟨h1, h2, h3⟩
        · refine Or.inr (Or.inr ⟨by simp, ?_, ?_⟩)
          · simpa [h1] using h2
          · simp [h1, h3]
        · refine Or.inr (Or.inl ⟨l, ?_, h2, ?_⟩)
          · rw [getLast?_cons_of_ne_nil _ (by rintro hn; simp [hn] at h1)]
            exact h1
          · simp [h3]
        · refine Or.inr (Or.inr ⟨by simp, ?_, ?_⟩)
          · have harith : startPage +
                (server startPage ::
                  (makePaginatedRequestGo server pageSize n (startPage + 1)).1).length
                = startPage + 1 +
                  (makePaginatedRequestGo server pageSize n (startPage + 1)).1.length := by
              simp; omega
            rw [harith]; exact h2
          · simp [h3]


/-- C5 witness: the amended statement applied to the concrete endpoint of
scenario A (pages `[1,2]` then `[3]`, page size 2): the run terminates with
batches `[[1,2],[3]]` after 2 calls, and one of the amended disjuncts holds. -/
theorem c5_last_batch_amended_witness :
    (([[1, 2], [3]] : List (List Item)) = [] ∧
      (fun p => if p = 1 then [1, 2] else if p = 2 then [3] else [] : Nat → List Item) 1 = [] ∧
      (2 : Nat) = 1) ∨
    (∃ l, ([[1, 2], [3]] : List (List Item)).getLast? = some l ∧
      l.length < 2 ∧ (2 : Nat) = ([[1, 2], [3]] : List (List Item)).length) ∨
    (([[1, 2], [3]] : List (List Item)) ≠ [] ∧
      (fun p => if p = 1 then [1, 2] else if p = 2 then [3] else [] : Nat → List Item)
        (1 + ([[1, 2], [3]] : List (List Item)).length) = [] ∧
      (2 : Nat) = ([[1, 2], [3]] : List (List Item)).length + 1) :=
  c5_last_batch_amended
    (fun p => if p = 1 then [1, 2] else if p = 2 then [3] else []) 2 5 1
    [[1, 2], [3]] 2 (by decide)

/-- C6: for the top-level cursor sequence of `_execute_paginated_query`, a
response with empty `nodes` terminates the sequence at once without yielding a
batch for it, and a response with non-empty `nodes` and `hasNextPage = false`
terminates the sequence right after yielding that batch; in both cases exactly
one remote call (the one that produced the terminal response) is performed
from that point on — no further call follows either terminal response. -/
theorem c6_cursor_terminal (tserver : Option String → TopResponse)
    (fuel : Nat) (cursor : Option String) (hf : 1 ≤ fuel) :
    ((tserver cursor).nodes = [] →
      executePaginatedQueryGo tserver fuel cursor = ([], 1, true)) ∧
    ((tserver cursor).nodes ≠ [] →
      (tserver cursor).pageInfo.hasNextPage = false →
      executePaginatedQueryGo tserver fuel cursor
        = ([(tserver cursor).nodes], 1, true)) := by
  obtain ⟨n, rfl⟩ : ∃ n, fuel = n + 1 := ⟨fuel - 1, by omega⟩
  constructor
  · intro h
    simp [executePaginatedQueryGo, h]
  · intro h1 h2
    simp [executePaginatedQueryGo, List.isEmpty_iff, h1, h2]

/-- C6 witness: a server whose first response has two records and
`hasNextPage = false` yields that single batch and stops after one call. -/
theorem c6_cursor_terminal_witness :
    executePaginatedQueryGo
      (fun _ => ⟨[⟨"a", []⟩, ⟨"b", []⟩], ⟨false, none⟩⟩) 3 none
      = ([[⟨"a", []⟩, ⟨"b", []⟩]], 1, true) :=
  (c6_cursor_terminal (fun _ => ⟨[⟨"a", []⟩, ⟨"b", []⟩], ⟨false, none⟩⟩) 3 none
    (by decide)).2 (by decide) rfl

/-- C7: a nested-field stream (`_paginate_field`) first yields the field's
already-known first page `nf.nodes` (obtained with the parent fetch); when
`hasNextPage` is false on that known page it makes no remote call at all and
ends; whenever the run does not end in a parent-lookup error it has issued
exactly one remote call per page after the first; and every call it issues
uses the field-scoped cursor variable `"<fieldName>Cursor"`. -/
theorem c7_nested_stream_calls
    (nserver : String → String → List (String × NestedField))
    (pid f : String) (nf : NestedField) (fuel : Nat) :
    (paginateField nserver pid f nf fuel).1.head? = some nf.nodes ∧
    (nf.pageInfo.hasNextPage = false →
      paginateField nserver pid f nf fuel = ([nf.nodes], [], RunOutcome.done)) ∧
    ((paginateField nserver pid f nf fuel).2.2 ≠ RunOutcome.findError →
      (paginateField nserver pid f nf fuel).2.1.length + 1
        = (paginateField nserver pid f nf fuel).1.length) ∧
    (∀ call ∈ (paginateField nserver pid f nf fuel).2.1,
      call.varName = f ++ "Cursor") := by
  refine ⟨rfl, ?_, ?_, ?_⟩
  · intro h
    simp [paginateField, paginateFieldGo_of_not_hasNextPage nserver pid f fuel _ h]
  · intro h
    have := (paginateFieldGo_calls nserver pid f fuel nf.pageInfo).1
      (by simpa [paginateField] using h)
    simp [paginateField]
    omega
  · intro call hc
    exact (paginateFieldGo_calls nserver pid f fuel nf.pageInfo).2 call
      (by simpa [paginateField] using hc)

/-- C7 witness: a field whose known page is `[1]` with `hasNextPage = false`
yields exactly that page with zero calls, and the calls/pages accounting
holds. -/
theorem c7_nested_stream_calls_witness :
    paginateField (fun _ _ => []) "p" "lbl" ⟨[1], ⟨false, none⟩⟩ 3
      = ([[1]], [], RunOutcome.done) ∧
    (paginateField (fun _ _ => []) "p" "lbl" ⟨[1], ⟨false, none⟩⟩ 3).2.1.length + 1
      = (paginateField (fun _ _ => []) "p" "lbl" ⟨[1], ⟨false, none⟩⟩ 3).1.length :=
  ⟨(c7_nested_stream_calls (fun _ _ => []) "p" "lbl" ⟨[1], ⟨false, none⟩⟩ 3).2.1 rfl,
   (c7_nested_stream_calls (fun _ _ => []) "p" "lbl" ⟨[1], ⟨false, none⟩⟩ 3).2.2.1
     (by decide)⟩

/-- C8: a nested-field stream whose known page reports `hasNextPage = true`
with an absent `endCursor` stops at once, treated as exhaustion: it yields
only the already-known page, issues no remote call (no retry), its outcome is
the logged `noCursorStop` (not an error), and its event trace ends after that
single yield — a subsequent advance finds the stream exhausted. -/
theorem c8_missing_cursor_stops
    (nserver : String → String → List (String × NestedField))
    (pid f : String) (nf : NestedField) (fuel : Nat)
    (h1 : nf.pageInfo.hasNextPage = true) (h2 : nf.pageInfo.endCursor = none) :
    paginateField nserver pid f nf fuel = ([nf.nodes], [], RunOutcome.noCursorStop) ∧
    fieldEvents f (paginateField nserver pid f nf fuel)
      = [StreamEvent.fieldPage f nf.nodes] := by
  have hgo := paginateFieldGo_of_missing_cursor nserver pid f fuel nf.pageInfo h1 h2
  constructor
  · simp [paginateField, hgo]
  · simp [fieldEvents, paginateField, hgo]

/-- C8 witness: the stream of a field with known page `[9]`,
`hasNextPage = true` and no cursor stops with only the known page, no calls,
and a terminal single-event trace. -/
theorem c8_missing_cursor_stops_witness :
    paginateField (fun _ _ => []) "p" "lbl" ⟨[9], ⟨true, none⟩⟩ 2
      = ([[9]], [], RunOutcome.noCursorStop) ∧
    fieldEvents "lbl" (paginateField (fun _ _ => []) "p" "lbl" ⟨[9], ⟨true, none⟩⟩ 2)
      = [StreamEvent.fieldPage "lbl" [9]] :=
  c8_missing_cursor_stops (fun _ _ => []) "p" "lbl" ⟨[9], ⟨true, none⟩⟩ 2 rfl rfl

/-! ## Merger helper lemmas -/

theorem processNestedFields_nil (fuel : Nat) :
    processNestedFields fuel [] = [] := by
  cases fuel <;> simp [processNestedFields]

theorem waveStep_nil : waveStep [] = ([], false) := rfl

theorem waveStep_cons (p : Record × FieldStream)
    (active : List (Record × FieldStream)) :
    waveStep (p :: active) =
      (match stepPair p with
       | (none, u) => ((waveStep active).1, u || (waveStep active).2)
       | (some q, u) => (q :: (waveStep active).1, u || (waveStep active).2)) := rfl

/-- A pair whose advance is dropped contributes nothing to a wave. -/
theorem waveStep_skip (r : Record) (s : FieldStream)
    (hs : stepPair (r, s) = (none, false)) :
    ∀ l1 l2, waveStep (l1 ++ (r, s) :: l2) = waveStep (l1 ++ l2) := by
  intro l1
  induction l1 with
  | nil =>
    intro l2
    simp only [List.nil_append, waveStep_cons, hs, Bool.false_or]
  | cons p t ih =>
    intro l2
    simp only [List.cons_append, waveStep_cons, ih l2]

/-- A pair whose advance is dropped contributes nothing to the whole merger
run: the emitted snapshots are exactly those of the batch without it. -/
theorem processNestedFields_skip (r : Record) (s : FieldStream)
    (hs : stepPair (r, s) = (none, false)) :
    ∀ fuel l1 l2,
      processNestedFields fuel (l1 ++ (r, s) :: l2)
        = processNestedFields fuel (l1 ++ l2) := by
  intro fuel
  cases fuel with
  | zero => intro l1 l2; rfl
  | succ n =>
    intro l1 l2
    by_cases hrest : l1 ++ l2 = []
    · obtain ⟨rfl, rfl⟩ : l1 = [] ∧ l2 = [] := by
        cases l1 <;> simp_all
      simp [processNestedFields, waveStep_cons, waveStep_nil, hs,
        processNestedFields_nil]
    · have h1 : ((l1 ++ (r, s) :: l2).isEmpty) = false := by
        simp [List.isEmpty_iff]
      have h2 : ((l1 ++ l2).isEmpty) = false := by
        simp [List.isEmpty_iff, hrest]
      simp only [processNestedFields, h1, h2, Bool.false_eq_true, if_false,
        waveStep_skip r s hs l1 l2]

/-- Every pair of a wave's output descends from a pair of its input. -/
theorem waveStep_mem :
    ∀ (active : List (Record × FieldStream)) (q : Record × FieldStream),
      q ∈ (waveStep active).1 →
      ∃ p ∈ active, ∃ u, stepPair p = (some q, u) := by
  intro active
  induction active with
  | nil => intro q hq; simp [waveStep_nil] at hq
  | cons p t ih =>
    intro q hq
    rcases hsp : stepPair p with ⟨o, u⟩
    cases o with
    | none =>
      rw [waveStep_cons] at hq
      simp only [hsp] at hq
      obtain ⟨p', hp', hu⟩ := ih q hq
      exact ⟨p', List.mem_cons_of_mem _ hp', hu⟩
    | some q0 =>
      rw [waveStep_cons] at hq
      simp only [hsp] at hq
      rcases List.mem_cons.mp hq with rfl | hq'
      · exact ⟨p, List.mem_cons_self .., u, hsp⟩
      · obtain ⟨p', hp', hu⟩ := ih q hq'
        exact ⟨p', List.mem_cons_of_mem _ hp', hu⟩

/-- Looking a field up after a merge: every field's value is either unchanged
or is the old nested value with `ns` appended to its `nodes`. -/
theorem lookupField_mergeFields (f f0 : String) (ns : List Item) :
    ∀ l : List (String × FieldValue),
      lookupField f (mergeFields f0 ns l) = lookupField f l ∨
      ∃ nf, lookupField f l = some (.nested nf) ∧
        lookupField f (mergeFields f0 ns l)
          = some (.nested ⟨nf.nodes ++ ns, nf.pageInfo⟩) := by
  intro l
  induction l with
  | nil => exact Or.inl rfl
  | cons kv rest ih =>
    obtain ⟨k, v⟩ := kv
    by_cases hk : k = f
    · subst hk
      by_cases hk0 : k = f0
      · subst hk0
        cases v with
        | plain w => exact Or.inl (by simp [mergeFields, lookupField])
        | nested nf =>
          exact Or.inr ⟨nf, by simp [lookupField], by simp [mergeFields, lookupField]⟩
      · exact Or.inl (by simp [mergeFields, lookupField, hk0])
    · have hl : lookupField f (mergeFields f0 ns ((k, v) :: rest))
          = lookupField f (mergeFields f0 ns rest) := by
        by_cases hk0 : k = f0
        · subst hk0
          cases v <;> simp [mergeFields, lookupField, hk]
        · simp [mergeFields, lookupField, hk, hk0]
      have hr : lookupField f ((k, v) :: rest) = lookupField f rest := by
        simp [lookupField, hk]
      rw [hl, hr]
      exact ih

/-- Merging into a field that is present and nested-collection shaped appends
exactly the arrived items after the existing ones. -/
theorem getNodes_mergeField_self (r : Record) (f : String) (ns : List Item)
    (h : hasNestedField r f = true) :
    getNodes (mergeField r f ns) f = getNodes r f ++ ns := by
  obtain ⟨nf, hnf⟩ : ∃ nf, lookupField f r.fields = some (.nested nf) := by
    unfold hasNestedField at h
    cases hl : lookupField f r.fields with
    | none => rw [hl] at h; simp at h
    | some v =>
      cases v with
      | plain w => rw [hl] at h; simp at h
      | nested nf => exact ⟨nf, rfl⟩
  have hself : ∀ l : List (String × FieldValue),
      lookupField f l = some (.nested nf) →
      lookupField f (mergeFields f ns l)
        = some (.nested ⟨nf.nodes ++ ns, nf.pageInfo⟩) := by
    intro l
    induction l with
    | nil => intro h0; simp [lookupField] at h0
    | cons kv rest ih =>
      obtain ⟨k, v⟩ := kv
      intro h0
      by_cases hk : k = f
      · subst hk
        have h0' : v = FieldValue.nested nf := by simpa [lookupField] using h0
        subst h0'
        simp [mergeFields, lookupField]
      · have h0' : lookupField f rest = some (.nested nf) := by
          simpa [lookupField, hk] using h0
        have hskip : lookupField f (mergeFields f ns ((k, v) :: rest))
            = lookupField f (mergeFields f ns rest) := by
          simp [mergeFields, lookupField, hk]
        rw [hskip]
        exact ih h0'
  unfold getNodes mergeField
  simp only [hnf, hself r.fields hnf]

/-- Merging never removes data: after a merge every field's `nodes` list is
the old list with some (possibly empty) suffix appended. -/
theorem getNodes_mergeField (r : Record) (f0 : String) (ns : List Item)
    (f : String) :
    ∃ tail, getNodes (mergeField r f0 ns) f = getNodes r f ++ tail := by
  rcases lookupField_mergeFields f f0 ns r.fields with h | ⟨nf, h1, h2⟩
  · exact ⟨[], by simp [getNodes, mergeField, h]⟩
  · exact ⟨ns, by simp [getNodes, mergeField, h1, h2]⟩

/-- A surviving advance keeps the parent's identity and only ever appends to
each field's `nodes`. -/
theorem stepPair_descend (r : Record) (s : FieldStream)
    (q : Record × FieldStream) (u : Bool)
    (h : stepPair (r, s) = (some q, u)) :
    q.1.id = r.id ∧ ∀ f, ∃ tail, getNodes q.1 f = getNodes r f ++ tail := by
  cases s with
  | nil => simp [stepPair] at h
  | cons e rest =>
    cases e with
    | failure => simp [stepPair] at h
    | fieldPage f0 ns =>
      simp only [stepPair] at h
      split at h
      · obtain ⟨rfl, -⟩ : q = (r, rest) ∧ False = u := by
          simpa [Prod.mk.injEq, eq_comm] using h
        exact ⟨rfl, fun f => ⟨[], by simp⟩⟩
      · obtain ⟨rfl, -⟩ : q = (mergeField r f0 ns, rest) ∧ True = u := by
          simpa [Prod.mk.injEq, eq_comm] using h
        exact ⟨rfl, fun f => getNodes_mergeField r f0 ns f⟩

/-- The trace of merger states always starts at the given active set. -/
theorem mergerStates_head (fuel : Nat) (active : List (Record × FieldStream)) :
    (mergerStates fuel active).head? = some active := by
  cases fuel with
  | zero => rfl
  | succ n =>
    by_cases h : active.isEmpty <;> simp [mergerStates, h]

theorem mergerStates_self_mem (fuel : Nat)
    (active : List (Record × FieldStream)) :
    active ∈ mergerStates fuel active := by
  have := mergerStates_head fuel active
  cases hms : mergerStates fuel active with
  | nil => rw [hms] at this; simp at this
  | cons a t =>
    rw [hms] at this
    simp only [List.head?_cons, Option.some.injEq] at this
    exact this ▸ List.mem_cons_self ..

/-- One wave is an append-only refinement step. -/
theorem appendOnlyStep_wave (active : List (Record × FieldStream)) :
    appendOnlyStep active (waveStep active).1 := by
  intro p' hp'
  obtain ⟨p, hp, u, hs⟩ := waveStep_mem active p' hp'
  obtain ⟨r, s⟩ := p
  obtain ⟨hid, htail⟩ := stepPair_descend r s p' u hs
  refine ⟨(r, s), hp, hid, fun f => ⟨htail f, ?_⟩⟩
  obtain ⟨t, ht⟩ := htail f
  simp [ht]

/-- The whole state trace of a merger run is an append-only chain. -/
theorem mergerStates_chain (fuel : Nat) (active : List (Record × FieldStream)) :
    List.Chain' appendOnlyStep (mergerStates fuel active) := by
  induction fuel generalizing active with
  | zero => simp [mergerStates]
  | succ n ih =>
    by_cases h : active.isEmpty
    · simp [mergerStates, h]
    · have hms : mergerStates (n + 1) active
          = active :: mergerStates n (waveStep active).1 := by
        simp [mergerStates, h]
      rw [hms]
      refine List.chain'_cons'.mpr ⟨?_, ih _⟩
      intro y hy
      rw [mergerStates_head] at hy
      obtain rfl : (waveStep active).1 = y := by simpa using hy
      exact appendOnlyStep_wave active

/-- Every emitted snapshot is the parent-record projection of some state of
the merger's state trace. -/
theorem processNestedFields_states (fuel : Nat) :
    ∀ (active : List (Record × FieldStream)) snap,
      snap ∈ processNestedFields fuel active →
      ∃ st ∈ mergerStates fuel active, snap = st.map Prod.fst := by
  induction fuel with
  | zero => intro active snap h; simp [processNestedFields] at h
  | succ n ih =>
    intro active snap h
    by_cases he : active.isEmpty
    · simp [processNestedFields, he] at h
    · have hms : mergerStates (n + 1) active
          = active :: mergerStates n (waveStep active).1 := by
        simp [mergerStates, he]
      simp only [processNestedFields] at h
      rw [if_neg (by simp [he])] at h
      rcases List.mem_append.mp h with h1 | h2
      · have hsnap : snap = (waveStep active).1.map Prod.fst := by
          split at h1 <;> simp_all
      
        refine ⟨(waveStep active).1, ?_, hsnap⟩
        rw [hms]
        exact List.mem_cons_of_mem _ (mergerStates_self_mem ..)
      · obtain ⟨st, hst, heq⟩ := ih (waveStep active).1 snap h2
        refine ⟨st, ?_, heq⟩
        rw [hms]
        exact List.mem_cons_of_mem _ hst

/-- Every record of every emitted snapshot descends from one of the pairs the
merger started with (same parent id). -/
theorem processNestedFields_ids (fuel : Nat) :
    ∀ (active : List (Record × FieldStream)) snap,
      snap ∈ processNestedFields fuel active →
      ∀ q ∈ snap, ∃ p ∈ active, q.id = p.1.id := by
  induction fuel with
  | zero => intro active snap h; simp [processNestedFields] at h
  | succ n ih =>
    intro active snap h q hq
    by_cases he : active.isEmpty
    · simp [processNestedFields, he] at h
    · simp only [processNestedFields] at h
      rw [if_neg (by simp [he])] at h
      rcases List.mem_append.mp h with h1 | h2
      · have hsnap : snap = (waveStep active).1.map Prod.fst := by
          split at h1 <;> simp_all
        subst hsnap
        obtain ⟨pair, hpair, rfl⟩ := List.mem_map.mp hq
        obtain ⟨p, hp, u, hs⟩ := waveStep_mem active pair hpair
        obtain ⟨r, s⟩ := p
        exact ⟨(r, s), hp, (stepPair_descend r s pair u hs).1⟩
      · obtain ⟨p1, hp1, hid1⟩ := ih (waveStep active).1 snap h2 q hq
        obtain ⟨p, hp, u, hs⟩ := waveStep_mem active p1 hp1
        obtain ⟨r, s⟩ := p
        exact ⟨(r, s), hp, hid1.trans (stepPair_descend r s p1 u hs).1⟩

/-- A wave over pairs that are all dropped produces an empty next active set
and no update. -/
theorem waveStep_all_none :
    ∀ active : List (Record × FieldStream),
      (∀ p ∈ active, stepPair p = (none, false)) →
      waveStep active = ([], false) := by
  intro active
  induction active with
  | nil => intro _; rfl
  | cons p t ih =>
    intro h
    rw [waveStep_cons, h p (List.mem_cons_self ..),
      ih (fun q hq => h q (List.mem_cons_of_mem _ hq))]
    rfl

/-- A pair listed by the structural nested-field discovery is literally a
nested-shaped entry of the record's fields. -/
theorem mem_of_nestedFieldsOf (r : Record) (f : String) (nf : NestedField)
    (h : (f, nf) ∈ nestedFieldsOf r) :
    (f, FieldValue.nested nf) ∈ r.fields := by
  unfold nestedFieldsOf at h
  obtain ⟨kv, hkv, hg⟩ := List.mem_filterMap.mp h
  obtain ⟨k, v⟩ := kv
  cases v with
  | plain w => simp at hg
  | nested nf' =>
    obtain ⟨rfl, rfl⟩ : k = f ∧ nf' = nf := by simpa using hg
    exact hkv

/-- In a record whose field keys are distinct (a Python dict), dict lookup
finds any listed entry. -/
theorem lookupField_of_nodup :
    ∀ (l : List (String × FieldValue)), (l.map Prod.fst).Nodup →
      ∀ (f : String) (v : FieldValue), (f, v) ∈ l → lookupField f l = some v := by
  intro l
  induction l with
  | nil => intro _ f v h; simp at h
  | cons kv t ih =>
    intro hnd f v h
    obtain ⟨k, w⟩ := kv
    simp only [List.map_cons] at hnd
    have hnd1 : k ∉ t.map Prod.fst := (List.nodup_cons.mp hnd).1
    have hnd2 : (t.map Prod.fst).Nodup := (List.nodup_cons.mp hnd).2
    rcases List.mem_cons.mp h with heq | hmem
    · obtain ⟨rfl, rfl⟩ : k = f ∧ w = v := by
        simpa using heq.symm
      simp [lookupField]
    · have hk : k ≠ f := by
        rintro rfl
        exact hnd1 (List.mem_map.mpr ⟨(k, v), hmem, rfl⟩)
      simp only [lookupField, if_neg hk]
      exact ih hnd2 f v hmem

/-! ## Claims C1–C3, C9, C10 -/

/-- C1: a (parent, stream) pair whose advance reports exhaustion or raises an
error is dropped silently during the wave: its `stepPair` is `(none, false)`
(the parent record itself is left exactly as already merged, the pair just
leaves the active set), and the whole merger run — every snapshot for every
other pair — is exactly what it would have been without the failing pair; in
particular the batch is never aborted. -/
theorem c1_failing_pair_isolated (fuel : Nat)
    (l1 l2 : List (Record × FieldStream)) (r : Record) (s : FieldStream)
    (h : s = [] ∨ ∃ tail, s = StreamEvent.failure :: tail) :
    stepPair (r, s) = (none, false) ∧
    processNestedFields fuel (l1 ++ (r, s) :: l2)
      = processNestedFields fuel (l1 ++ l2) := by
  have hs : stepPair (r, s) = (none, false) := by
    rcases h with rfl | ⟨tail, rfl⟩ <;> rfl
  exact ⟨hs, processNestedFields_skip r s hs fuel l1 l2⟩

/-- C1 witness: a batch of a healthy pair (parent "b") and an erroring pair
(parent "a"): the erroring pair is dropped and the run equals the run without
it. -/
theorem c1_failing_pair_isolated_witness :
    stepPair ((⟨"a", []⟩ : Record), [StreamEvent.failure]) = (none, false) ∧
    processNestedFields 3
      ([((⟨"b", [("lbl", FieldValue.nested ⟨[1], ⟨false, none⟩⟩)]⟩ : Record),
          [StreamEvent.fieldPage "lbl" [1]])] ++
        ((⟨"a", []⟩ : Record), [StreamEvent.failure]) :: [])
      = processNestedFields 3
        ([((⟨"b", [("lbl", FieldValue.nested ⟨[1], ⟨false, none⟩⟩)]⟩ : Record),
            [StreamEvent.fieldPage "lbl" [1]])] ++ []) :=
  c1_failing_pair_isolated 3
    [((⟨"b", [("lbl", FieldValue.nested ⟨[1], ⟨false, none⟩⟩)]⟩ : Record),
       [StreamEvent.fieldPage "lbl" [1]])]
    [] ⟨"a", []⟩ [StreamEvent.failure] (Or.inr ⟨[], rfl⟩)

/-- C2: merging is append-only per (parent, field).  The merger's state trace
is a chain under `appendOnlyStep` — every pair of a later state descends from
a pair of the earlier state with, for every field, the earlier `nodes` list as
an initial segment of the later one and hence non-decreasing length; one merge
into a present nested field appends exactly the newly arrived items after the
existing ones (preserving request order within the field); and every emitted
snapshot is the record projection of a state of that chain. -/
theorem c2_append_only_monotone (fuel : Nat)
    (active : List (Record × FieldStream)) :
    List.Chain' appendOnlyStep (mergerStates fuel active) ∧
    (∀ (r : Record) (f : String) (ns : List Item),
      hasNestedField r f = true →
      getNodes (mergeField r f ns) f = getNodes r f ++ ns) ∧
    (∀ snap ∈ processNestedFields fuel active,
      ∃ st ∈ mergerStates fuel active, snap = st.map Prod.fst) :=
  ⟨mergerStates_chain fuel active,
   fun r f ns h => getNodes_mergeField_self r f ns h,
   fun snap h => processNestedFields_states fuel active snap h⟩

/-- C2 witness: one concrete merge appends the arrived items after the
existing ones. -/
theorem c2_append_only_monotone_witness :
    getNodes
      (mergeField ⟨"p", [("lbl", FieldValue.nested ⟨[1], ⟨true, some "c"⟩⟩)]⟩
        "lbl" [2]) "lbl"
      = getNodes (⟨"p", [("lbl", FieldValue.nested ⟨[1], ⟨true, some "c"⟩⟩)]⟩ : Record)
          "lbl" ++ [2] :=
  (c2_append_only_monotone 1 []).2.1
    ⟨"p", [("lbl", FieldValue.nested ⟨[1], ⟨true, some "c"⟩⟩)]⟩ "lbl" [2] (by decide)

/-- C3 counterexample: batch with parent "a" (zero nested-collection fields)
and parent "b" (one nested field).  A snapshot is produced, yet parent "a" is
absent from the very first snapshot: its empty iterator is dropped in wave 1
before the snapshot is built.  This refutes "a parent record that has zero
nested-collection-shaped fields is represented in the very first snapshot". -/
theorem c3_counterexample :
    nestedFieldsOf ⟨"a", [("x", FieldValue.plain 7)]⟩ = [] ∧
    processNestedFields 3
      [((⟨"a", [("x", FieldValue.plain 7)]⟩ : Record),
         fetchPaginatedFields (fun _ _ => []) ⟨"a", [("x", FieldValue.plain 7)]⟩ 2),
       ((⟨"b", [("lbl", FieldValue.nested ⟨[1], ⟨false, none⟩⟩)]⟩ : Record),
         fetchPaginatedFields (fun _ _ => [])
           ⟨"b", [("lbl", FieldValue.nested ⟨[1], ⟨false, none⟩⟩)]⟩ 2)]
      ≠ [] ∧
    ((processNestedFields 3
      [((⟨"a", [("x", FieldValue.plain 7)]⟩ : Record),
         fetchPaginatedFields (fun _ _ => []) ⟨"a", [("x", FieldValue.plain 7)]⟩ 2),
       ((⟨"b", [("lbl", FieldValue.nested ⟨[1], ⟨false, none⟩⟩)]⟩ : Record),
         fetchPaginatedFields (fun _ _ => [])
           ⟨"b", [("lbl", FieldValue.nested ⟨[1], ⟨false, none⟩⟩)]⟩ 2)]).head?.getD
      []).all (fun q => q.id != "a") = true := by
  decide

/-- C3 amended: a parent with zero nested-collection-shaped fields gets an
empty (immediately exhausted) iterator, is dropped during the first wave and
appears in **no** snapshot — the emitted snapshots are exactly those of the
batch without that parent (every snapshot record descends from one of the
other pairs); and if no parent of the batch has any nested-collection field
(every iterator empty), the merger emits no snapshots at all. -/
theorem c3_no_nested_parent_amended :
    (∀ (nserver : String → String → List (String × NestedField))
       (fuel : Nat) (r : Record),
      nestedFieldsOf r = [] → fetchPaginatedFields nserver r fuel = []) ∧
    (∀ (fuel : Nat) (l1 l2 : List (Record × FieldStream)) (r : Record),
      processNestedFields fuel (l1 ++ (r, ([] : FieldStream)) :: l2)
        = processNestedFields fuel (l1 ++ l2)) ∧
    (∀ (fuel : Nat) (active : List (Record × FieldStream)),
      (∀ p ∈ active, p.2 = ([] : FieldStream)) →
      processNestedFields fuel active = []) ∧
    (∀ (fuel : Nat) (active : List (Record × FieldStream)) snap,
      snap ∈ processNestedFields fuel active →
      ∀ q ∈ snap, ∃ p ∈ active, q.id = p.1.id) := by
  refine ⟨?_, ?_, ?_, ?_⟩
  · intro nserver fuel r h
    simp [fetchPaginatedFields, h]
  · intro fuel l1 l2 r
    exact processNestedFields_skip r [] rfl fuel l1 l2
  · intro fuel active h
    cases fuel with
    | zero => rfl
    | succ n =>
      by_cases he : active.isEmpty
      · simp [processNestedFields, he]
      · have hw : waveStep active = ([], false) := by
          apply waveStep_all_none
          intro p hp
          obtain ⟨r0, s0⟩ := p
          have hs : s0 = [] := h (r0, s0) hp
          rw [hs]
          rfl
        simp [processNestedFields, he, hw, processNestedFields_nil]
  · intro fuel active snap h q hq
    exact processNestedFields_ids fuel active snap h q hq

/-- C3 amended witness: the no-nested-fields parent "a" produces an empty
iterator and a batch of only such parents produces no snapshots. -/
theorem c3_no_nested_parent_amended_witness :
    fetchPaginatedFields (fun _ _ => []) ⟨"a", [("x", FieldValue.plain 7)]⟩ 2
      = [] ∧
    processNestedFields 2
      [((⟨"a", [("x", FieldValue.plain 7)]⟩ : Record), ([] : FieldStream))]
      = [] :=
  ⟨c3_no_nested_parent_amended.1 (fun _ _ => []) 2
      ⟨"a", [("x", FieldValue.plain 7)]⟩ (by decide),
   c3_no_nested_parent_amended.2.2.1 2
      [((⟨"a", [("x", FieldValue.plain 7)]⟩ : Record), ([] : FieldStream))]
      (by decide)⟩

/-- C9: under the semaphore transition system, from the initial state of a
wave of `n` advances with cap `cap ≥ 1`, every reachable state has at most
`cap` advances in flight — a slot is acquired before an advance initiates its
remote call and released when the advance resolves, whatever its outcome, so
never more than `cap` remote calls are outstanding at any instant (the source
instantiates `cap` with `semaphoreCapacity = 50`). -/
theorem c9_semaphore_bound (cap n : Nat) (_hcap : 1 ≤ cap) (s : SemState)
    (h : SemReachable cap n s) : s.inflight ≤ cap := by
  unfold SemReachable at h
  induction h with
  | refl => simp [semInit]
  | @tail b c hab hbc ih =>
    cases hbc with
    | acquire hp hi => exact hi
    | release hi =>
      show b.inflight - 1 ≤ cap
      omega

/-- C9 witness: with cap 1 and two advances, the state after one acquisition
is reachable and holds at most one slot. -/
theorem c9_semaphore_bound_witness : (⟨1, 1, 0⟩ : SemState).inflight ≤ 1 :=
  c9_semaphore_bound 1 2 (by decide) ⟨1, 1, 0⟩
    (Relation.ReflTransGen.single
      (SemStep.acquire (semInit 2) (by decide) (by decide)))

/-- C10: the first page a nested-field stream yields is the very `nodes` list
already stored in the parent (it was obtained with the parent fetch), and the
merger's first wave appends it to that same collection
(`project[field_name]["nodes"].extend(nodes)` with `nodes` aliasing the
stored list): after the first wave the parent's first nested field holds each
first-page item twice — the merged collection starts duplicated. -/
theorem c10_first_wave_duplicates
    (nserver : String → String → List (String × NestedField)) (fuel : Nat)
    (r : Record) (f : String) (nf : NestedField)
    (rest : List (String × NestedField))
    (hn : nestedFieldsOf r = (f, nf) :: rest)
    (hk : (r.fields.map Prod.fst).Nodup) :
    ∃ q u, waveStep [(r, fetchPaginatedFields nserver r fuel)] = ([q], u) ∧
      getNodes q.1 f = nf.nodes ++ nf.nodes := by
  have hmem : (f, FieldValue.nested nf) ∈ r.fields :=
    mem_of_nestedFieldsOf r f nf (by rw [hn]; exact List.mem_cons_self ..)
  have hlk : lookupField f r.fields = some (.nested nf) :=
    lookupField_of_nodup r.fields hk f _ hmem
  have hget : getNodes r f = nf.nodes := by simp [getNodes, hlk]
  have hhn : hasNestedField r f = true := by simp [hasNestedField, hlk]
  obtain ⟨tl, hev⟩ : ∃ tl, fetchPaginatedFields nserver r fuel
      = StreamEvent.fieldPage f nf.nodes :: tl := by
    refine ⟨((paginateFieldGo nserver r.id f fuel nf.pageInfo).1.map
        (fun ns => StreamEvent.fieldPage f ns) ++
        (if (paginateFieldGo nserver r.id f fuel nf.pageInfo).2.2
            = RunOutcome.findError then [StreamEvent.failure] else [])) ++
      rest.flatMap
        (fun kv => fieldEvents kv.1 (paginateField nserver r.id kv.1 kv.2 fuel)), ?_⟩
    unfold fetchPaginatedFields
    rw [hn]
    simp [fieldEvents, paginateField]
  rw [hev]
  by_cases hnil : nf.nodes.isEmpty
  · have hz : nf.nodes = [] := List.isEmpty_iff.mp hnil
    refine ⟨(r, tl), false, ?_, ?_⟩
    · simp [waveStep_cons, waveStep_nil, stepPair, hnil]
    · simp [hget, hz]
  · refine ⟨(mergeField r f nf.nodes, tl), true, ?_, ?_⟩
    · simp [waveStep_cons, waveStep_nil, stepPair, hnil]
    · rw [getNodes_mergeField_self r f nf.nodes hhn, hget]

/-- C10 witness: the parent "p1" with one nested field holding first page
`[1, 2]`: after the first wave its field holds `[1, 2, 1, 2]`. -/
theorem c10_first_wave_duplicates_witness :
    ∃ q u, waveStep
      [((⟨"p1", [("lbl", FieldValue.nested ⟨[1, 2], ⟨false, none⟩⟩)]⟩ : Record),
        fetchPaginatedFields (fun _ _ => [])
          ⟨"p1", [("lbl", FieldValue.nested ⟨[1, 2], ⟨false, none⟩⟩)]⟩ 1)]
      = ([q], u) ∧
      getNodes q.1 "lbl" = ([1, 2] : List Item) ++ [1, 2] :=
  c10_first_wave_duplicates (fun _ _ => []) 1
    ⟨"p1", [("lbl", FieldValue.nested ⟨[1, 2], ⟨false, none⟩⟩)]⟩
    "lbl" ⟨[1, 2], ⟨false, none⟩⟩ [] (by decide) (by decide)
